import Mathlib

/-!
Shallow embedding of the BookCenter search core: the fuzzy-matching,
transliteration, suggestion and ranking utilities of
`src/utils/advancedSearch.ts`, and the two-tier retrieval strategy of
`DatabaseManager.searchBooks` in `src/utils/database.ts`.

Modelling conventions:
* JavaScript strings are modelled as lists of Unicode code points
  (`Str := List Char`).  Every character the program manipulates (ASCII and
  Bangla) lies in the Basic Multilingual Plane, where UTF-16 length and code
  point count agree.
* The model's strings are taken to be NFC-composed code point sequences, so
  the `normalize('NFC')` step of the source is the identity on the model.
* JavaScript floating point numbers are modelled by exact rationals.
* The character classes used by the source's Unicode-aware regular
  expressions are restricted to the scripts the program handles (ASCII and
  Bangla); the ASCII-only catch fallback of `FuzzySearch.normalize` models a
  runtime without Unicode regex support and is not embedded.
* JavaScript's stable `Array.prototype.sort` is modelled by a stable
  insertion sort with the boolean ordering induced by the comparator.
* The recursion of `SearchRanking.calculateScore` is not structurally
  decreasing, so it is embedded fuel-indexed, returning `none` when the call
  depth exceeds the fuel.
-/

namespace BookCenter

/-- Strings as lists of Unicode code points. -/
abbrev Str := List Char

/-- The JavaScript whitespace class `\s`, restricted to the code points the
model covers (ASCII whitespace plus NBSP). -/
def jsIsSpace (c : Char) : Bool :=
  c = ' ' || c = '\t' || c = '\n' || c = '\r' || c = '\x0b' || c = '\x0c' ||
    c = ' '

/-- Characters kept by the stripping regex of `FuzzySearch.normalize`, i.e.
the class `[\p{L}\p{N}\s]` over the scripts this program handles: ASCII
letters and digits, Bangla letters and digits, and whitespace. -/
def isWordChar (c : Char) : Bool :=
  ('a' ≤ c && c ≤ 'z') || ('A' ≤ c && c ≤ 'Z') || ('0' ≤ c && c ≤ '9') ||
    (0x0985 ≤ c.val && c.val ≤ 0x09B9) || (c.val = 0x09CE) ||
    (0x09DC ≤ c.val && c.val ≤ 0x09E1) || (0x09E6 ≤ c.val && c.val ≤ 0x09F1) ||
    jsIsSpace c

/-- The 26 ASCII case pairs used by `toLowerCase` on the model's scripts
(Bangla has no case). -/
def upperLowerPairs : List (Char × Char) :=
  [ ('A', 'a'), ('B', 'b'), ('C', 'c'), ('D', 'd'), ('E', 'e'), ('F', 'f'),
    ('G', 'g'), ('H', 'h'), ('I', 'i'), ('J', 'j'), ('K', 'k'), ('L', 'l'),
    ('M', 'm'), ('N', 'n'), ('O', 'o'), ('P', 'p'), ('Q', 'q'), ('R', 'r'),
    ('S', 's'), ('T', 't'), ('U', 'u'), ('V', 'v'), ('W', 'w'), ('X', 'x'),
    ('Y', 'y'), ('Z', 'z') ]

/-- JavaScript `toLowerCase` on one code point, restricted to the model's
scripts: ASCII upper-case letters map to lower case, everything else is
unchanged. -/
def jsToLower (c : Char) : Char :=
  (upperLowerPairs.lookup c).getD c

/-- JavaScript `String.prototype.toLowerCase` on the model. -/
def jsToLowerStr (s : Str) : Str :=
  s.map jsToLower

/-- Scanner for the `.replace(/\s+/g, ' ')` step; the flag records whether the
scanner is inside a whitespace run, so every maximal run of whitespace
characters is replaced by a single space. -/
def collapseWsAux : Bool → Str → Str
  | _, [] => []
  | inRun, c :: cs =>
    if jsIsSpace c then
      if inRun then collapseWsAux true cs else ' ' :: collapseWsAux true cs
    else c :: collapseWsAux false cs

/-- The `.replace(/\s+/g, ' ')` step of `FuzzySearch.normalize`. -/
def collapseWs (s : Str) : Str :=
  collapseWsAux false s

/-- JavaScript `String.prototype.trim`: drop leading and trailing whitespace. -/
def trimWs (s : Str) : Str :=
  (s.dropWhile jsIsSpace).rdropWhile jsIsSpace

/-- `FuzzySearch.normalize` (src/utils/advancedSearch.ts:44): lower-case,
NFC-compose (the identity on the model), strip every character that is not a
letter, digit or whitespace, collapse whitespace runs to single spaces, and
trim. -/
def normalize (s : Str) : Str :=
  trimWs (collapseWs ((jsToLowerStr s).filter isWordChar))

/-- JavaScript `String.prototype.includes`: substring containment (every
string contains the empty string, in particular `"".includes("")` is true). -/
def strContains (hay needle : Str) : Bool :=
  if needle.isPrefixOf hay then true
  else
    match hay with
    | [] => false
    | _ :: t => strContains t needle

/-- Inner loop of the Levenshtein distance: given `f = lev xs`, computes
`lev (x :: xs)` by structural recursion on the second string. -/
def levAux (f : Str → Nat) (x : Char) : Str → Nat
  | [] => f [] + 1
  | y :: ys =>
    min (f ys + (if x = y then 0 else 1))
      (min (levAux f x ys + 1) (f (y :: ys) + 1))

/-- The Levenshtein edit distance computed by the dynamic program of
`FuzzySearch.levenshteinDistance` (src/utils/advancedSearch.ts:6): unit-cost
single-character insertion, deletion and substitution. -/
def lev : Str → Str → Nat
  | [], ys => ys.length
  | x :: xs, ys => levAux (lev xs) x ys

/-- `FuzzySearch.similarity` (src/utils/advancedSearch.ts:31): picks the
longer/shorter argument order, returns 1 when both are empty, otherwise
`(longer.length - distance) / longer.length`. -/
def similarity (str1 str2 : Str) : ℚ :=
  let longer := if str2.length < str1.length then str1 else str2
  let shorter := if str2.length < str1.length then str2 else str1
  if longer.length = 0 then 1
  else ((longer.length : ℚ) - (lev longer shorter : ℚ)) / (longer.length : ℚ)

/-- `FuzzySearch.fuzzyMatch` (src/utils/advancedSearch.ts:66): substring
containment of the normalized query, else every query word must have some
text word at similarity at least the threshold. -/
def fuzzyMatch (query text : Str) (threshold : ℚ) : Bool :=
  let normalizedQuery := normalize query
  let normalizedText := normalize text
  if strContains normalizedText normalizedQuery then true
  else
    (normalizedQuery.splitOn ' ').all (fun queryWord =>
      (normalizedText.splitOn ' ').any (fun textWord =>
        threshold ≤ similarity queryWord textWord))

/-- JavaScript `Math.max(...xs)` over a spread rational list.  The empty case
is `-Infinity` in JavaScript; it is unreachable in this program because
`split(' ')` never produces an empty array, and the model's `-1` likewise
fails every threshold comparison the result feeds. -/
def maxQ : List ℚ → ℚ
  | [] => -1
  | x :: xs => xs.foldl max x

/-- The `Math.max(...textWords.map(...))` expression of
`FuzzySearch.getMatchScore`: the best similarity of one query word against
the text words. -/
def wordBest (textWords : List Str) (queryWord : Str) : ℚ :=
  maxQ (textWords.map (fun textWord => similarity queryWord textWord))

/-- `FuzzySearch.getMatchScore` (src/utils/advancedSearch.ts:87): 1 on
substring containment of the normalized query, otherwise each query word's
best similarity against the text words is accumulated when it exceeds 0.6,
and the total is divided by the number of query words (0 when no word
exceeded the bar). -/
def getMatchScore (query text : Str) : ℚ :=
  let normalizedQuery := normalize query
  let normalizedText := normalize text
  if strContains normalizedText normalizedQuery then 1
  else
    let queryWords := normalizedQuery.splitOn ' '
    let textWords := normalizedText.splitOn ' '
    let acc := queryWords.foldl (fun acc queryWord =>
      let bestMatch := wordBest textWords queryWord
      if 3/5 < bestMatch then (acc.1 + bestMatch, acc.2 + 1) else acc)
      ((0 : ℚ), (0 : Nat))
    if 0 < acc.2 then acc.1 / (queryWords.length : ℚ) else 0

/-- One scan step of JavaScript `str.replace(new RegExp(pat, 'g'), rep)` for a
literal pattern: leftmost non-overlapping matches are replaced and scanning
resumes after the replacement text.  The fuel argument bounds the number of
scan steps; each step consumes at least one character of the remaining input,
so fuel `s.length` suffices and `replaceAll` below never exhausts it. -/
def replaceAllAux (pat rep : Str) : Nat → Str → Str
  | 0, s => s
  | fuel + 1, s =>
    if pat = [] then s
    else if pat.isPrefixOf s then rep ++ replaceAllAux pat rep fuel (s.drop pat.length)
    else
      match s with
      | [] => []
      | c :: t => c :: replaceAllAux pat rep fuel t

/-- JavaScript `str.replace(new RegExp(pat, 'g'), rep)` for a literal word
pattern (the transliteration dictionary entries contain no regex
metacharacters).  An empty pattern never occurs in the program. -/
def replaceAll (s pat rep : Str) : Str :=
  replaceAllAux pat rep s.length s

/-- The `banglaToEnglish` word dictionary of the `Transliteration` class
(src/utils/advancedSearch.ts:197), in insertion order. -/
def banglaToEnglishEntries : List (Str × Str) :=
  [ ("বাংলা".data, "bangla".data), ("বই".data, "boi".data),
    ("লেখক".data, "lekhok".data), ("প্রকাশক".data, "prokashok".data),
    ("প্রকাশনী".data, "prokashoni".data), ("উপন্যাস".data, "uponnash".data),
    ("কবিতা".data, "kobita".data), ("গল্প".data, "golpo".data),
    ("ইতিহাস".data, "itihas".data), ("বিজ্ঞান".data, "biggan".data),
    ("গণিত".data, "gonit".data), ("ভূগোল".data, "bhugol".data) ]

/-- The derived `englishToBangla` dictionary: the forward map mechanically
inverted (its values are pairwise distinct, so the last-write-wins semantics
of `Object.fromEntries` is plain inversion), preserving entry order. -/
def englishToBanglaEntries : List (Str × Str) :=
  banglaToEnglishEntries.map (fun e => (e.2, e.1))

/-- `Transliteration.banglaToEng` (src/utils/advancedSearch.ts:221):
lower-case, then substitute every dictionary key by its Latin counterpart,
one global replace per entry in insertion order. -/
def banglaToEng (text : Str) : Str :=
  banglaToEnglishEntries.foldl (fun result e => replaceAll result e.1 e.2)
    (jsToLowerStr text)

/-- `Transliteration.engToBangla` (src/utils/advancedSearch.ts:234): the same
substitution pass with the inverted dictionary. -/
def engToBangla (text : Str) : Str :=
  englishToBanglaEntries.foldl (fun result e => replaceAll result e.1 e.2)
    (jsToLowerStr text)

/-- Deduplication by JavaScript `new Set`: first occurrence wins, order kept. -/
def dedupFirstAux (seen : List Str) : List Str → List Str
  | [] => []
  | x :: xs =>
    if x ∈ seen then dedupFirstAux seen xs
    else x :: dedupFirstAux (x :: seen) xs

/-- Deduplication by JavaScript `[...new Set(l)]`. -/
def dedupFirst (l : List Str) : List Str :=
  dedupFirstAux [] l

/-- `Transliteration.getAllVariations` (src/utils/advancedSearch.ts:247): the
original query plus both transliterated versions, deduplicated keeping first
occurrences. -/
def getAllVariations (query : Str) : List Str :=
  dedupFirst [query, banglaToEng query, engToBangla query]

/-- `SuggestionEngine.addQuery` (src/utils/advancedSearch.ts:268): normalize;
when the result is nonempty and not already buffered, append it and evict the
oldest entry if the buffer then exceeds 1000 entries. -/
def addQuery (suggestions : List Str) (query : Str) : List Str :=
  let normalized := normalize query
  if normalized ≠ [] ∧ normalized ∉ suggestions then
    let pushed := suggestions ++ [normalized]
    if 1000 < pushed.length then pushed.drop 1 else pushed
  else suggestions

/-- The comparator of `SuggestionEngine.getSuggestions` as the boolean order
of the model's stable sort: `a` may precede `b` when the JavaScript
comparator is nonpositive on `(a, b)` (entries starting with the query first,
then descending match score). -/
def suggestLe (normalized a b : Str) : Bool :=
  let aStarts := normalized.isPrefixOf a
  let bStarts := normalized.isPrefixOf b
  if aStarts && !bStarts then true
  else if !aStarts && bStarts then false
  else decide (getMatchScore normalized b ≤ getMatchScore normalized a)

/-- `SuggestionEngine.getSuggestions` (src/utils/advancedSearch.ts:282):
empty normalized queries short-circuit to no suggestions; otherwise buffer
entries containing the query or similar to it beyond 0.7 are sorted by the
comparator and truncated to `limit`. -/
def getSuggestions (suggestions : List Str) (partialQuery : Str)
    (limit : Nat) : List Str :=
  let normalized := normalize partialQuery
  if normalized = [] then []
  else
    ((suggestions.filter (fun s =>
        strContains s normalized || decide (7/10 < similarity normalized s))).insertionSort
      (fun a b => suggestLe normalized a b = true)).take limit

/-- The projection of a catalog record the search path consults
(`Book` in src/utils/database.ts): the identity used for deduplication and
the four scored text fields.  The remaining `Book` fields (price, cover,
timestamps, version) are never read by the search code. -/
structure Book where
  id : Str
  name : Str
  author : Option Str
  publisher : Option Str
  notes : Option Str
deriving DecidableEq, Repr

/-- `SearchRanking.calculateScore` (src/utils/advancedSearch.ts:316),
fuel-indexed because the recursion over query variations is not structurally
decreasing: weighted field scores (name ×5, author ×3, publisher ×2,
notes ×1, absent fields contributing 0), plus 0.8× the recursively computed
score of every variation other than the query itself, capped at 10.
Exhausted fuel (an unbounded recursion in the source) yields `none`. -/
def calculateScoreF : Nat → Str → Book → Option ℚ
  | 0, _, _ => none
  | fuel + 1, query, book =>
    let normalizedQuery := normalize query
    let base : ℚ :=
      getMatchScore normalizedQuery book.name * 5 +
        (match book.author with
          | some author => getMatchScore normalizedQuery author * 3
          | none => 0) +
        (match book.publisher with
          | some publisher => getMatchScore normalizedQuery publisher * 2
          | none => 0) +
        (match book.notes with
          | some notes => getMatchScore normalizedQuery notes * 1
          | none => 0)
    match (getAllVariations query).foldlM (fun total variation =>
        if variation = query then some total
        else (calculateScoreF fuel variation book).map (fun s => total + s * (4/5)))
        base with
    | none => none
    | some total => some (min total 10)

/-- The `items.map(item => ({item, score}))` pass of
`SearchRanking.rankResults`, fuel-indexed like the scorer it calls: pairs
every item with its score, `none` as soon as one scoring call diverges. -/
def scoreItemsF (fuel : Nat) (query : Str) : List Book → Option (List (Book × ℚ))
  | [] => some []
  | item :: items =>
    match calculateScoreF fuel query item with
    | none => none
    | some score =>
      match scoreItemsF fuel query items with
      | none => none
      | some rest => some ((item, score) :: rest)

/-- `SearchRanking.rankResults` (src/utils/advancedSearch.ts:362): score every
item, keep the ones at or above the threshold, stable-sort them descending by
score and return the items. -/
def rankResultsF (fuel : Nat) (query : Str) (items : List Book)
    (threshold : ℚ) : Option (List Book) :=
  match scoreItemsF fuel query items with
  | none => none
  | some scored =>
    let kept := scored.filter (fun p => threshold ≤ p.2)
    let sorted := kept.insertionSort (fun a b => b.2 ≤ a.2)
    some (sorted.map (fun p => p.1))

/-- One step of the merge loop of `DatabaseManager.searchBooks`: each variant
result is appended only when its id is not already present. -/
def mergeUnique (acc : List Book) (more : List Book) : List Book :=
  more.foldl (fun a book =>
    if a.any (fun existing => existing.id = book.id) then a else a ++ [book]) acc

/-- The `for (const variation of variations)` loop of
`DatabaseManager.searchBooks`: every variation other than the query is ranked
against the full catalog and its results are merged into the accumulated
ranked list by record id. -/
def variationMergeF (fuel : Nat) (allBooks : List Book) (query : Str) :
    List Str → List Book → Option (List Book)
  | [], acc => some acc
  | variation :: vs, acc =>
    if variation = query then variationMergeF fuel allBooks query vs acc
    else
      match rankResultsF fuel variation allBooks (3/10) with
      | none => none
      | some variantResults =>
        variationMergeF fuel allBooks query vs (mergeUnique acc variantResults)

/-- `DatabaseManager.searchBooks` (src/utils/database.ts:175) with the two
I/O-supplied record lists as parameters: `ftsResults` is what the indexed
(LIKE-based) pass returned and `allBooks` the full catalog fetched on
escalation.  Three or more indexed results are returned as-is; otherwise the
catalog is fuzzy-ranked at threshold 0.3, re-ranked once per query variation,
merged by record id (first occurrence wins) and capped at 50 records.  The
`SuggestionEngine.addQuery` side effect is modelled separately by `addQuery`. -/
def searchBooksF (fuel : Nat) (ftsResults allBooks : List Book)
    (query : Str) : Option (List Book) :=
  if 3 ≤ ftsResults.length then some ftsResults
  else
    match rankResultsF fuel query allBooks (3/10) with
    | none => none
    | some rankedResults =>
      match variationMergeF fuel allBooks query (getAllVariations query)
          rankedResults with
      | none => none
      | some merged => some (merged.take 50)

/-- One ranking pass per variation, collecting the ranked lists in order. -/
def rankVariationsF (fuel : Nat) (allBooks : List Book) :
    List Str → Option (List (List Book))
  | [] => some []
  | variation :: vs =>
    match rankResultsF fuel variation allBooks (3/10) with
    | none => none
    | some l =>
      match rankVariationsF fuel allBooks vs with
      | none => none
      | some ls => some (l :: ls)

/-- Escalation tier of `DatabaseManager.searchBooks`: the full catalog is
ranked once for the query and once per variation other than the query, and
the lists are merged by record id, first occurrence winning, capped at 50. -/
def fuzzyEscalationF (fuel : Nat) (allBooks : List Book) (query : Str) :
    Option (List Book) :=
  match rankResultsF fuel query allBooks (3/10) with
  | none => none
  | some rankedResults =>
    match rankVariationsF fuel allBooks
        ((getAllVariations query).filter (fun variation => variation ≠ query)) with
    | none => none
    | some variantLists =>
      some ((variantLists.foldl mergeUnique rankedResults).take 50)

/-- Modelled from the spec: the field score as §4.4 words it — 1.0 on
substring containment, otherwise the per-query-word best similarity averaged
only over the query words whose best match reaches the 0.6 bar (words below
the bar contribute zero and are excluded from the denominator), and 0 when no
query word reaches the bar.  Stated for comparison with the source's
`getMatchScore`, which divides by the total query word count instead. -/
def specFieldMatchScore (query text : Str) : ℚ :=
  let normalizedQuery := normalize query
  let normalizedText := normalize text
  if strContains normalizedText normalizedQuery then 1
  else
    let queryWords := normalizedQuery.splitOn ' '
    let textWords := normalizedText.splitOn ' '
    let cleared := queryWords.filter (fun w => decide (3/5 ≤ wordBest textWords w))
    if cleared = [] then 0
    else (cleared.map (wordBest textWords)).sum / (cleared.length : ℚ)

/-- The relation between adjacent characters of a whitespace-collapsed
string: no two consecutive whitespace characters. -/
def noTwoSpaces (a b : Char) : Prop :=
  ¬(jsIsSpace a = true ∧ jsIsSpace b = true)

/-- Whether any transliteration-dictionary entry (in either direction)
occurs inside the lower-cased query, i.e. whether any of the global replaces
of `banglaToEng`/`engToBangla` can fire on it. -/
def dictHasMatch (query : Str) : Bool :=
  banglaToEnglishEntries.any (fun e => strContains (jsToLowerStr query) e.1) ||
    englishToBanglaEntries.any (fun e => strContains (jsToLowerStr query) e.1)

/-- The query `"boi"` of the transliteration dictionary. -/
def qBoi : Str := "boi".data

/-- The query `"বই"`, the Bangla dictionary counterpart of `"boi"`. -/
def qBoiBn : Str := "বই".data

/-- A query made of punctuation only, whose normalization is empty. -/
def qBang : Str := "!!!".data

/-- A catalog text used in concrete instances. -/
def tHobbit : Str := "hobbit".data

/-- A capitalized query matched by no transliteration-dictionary entry. -/
def qHelloU : Str := "Hello".data

/-- The lower-cased form of `qHelloU`. -/
def qHelloL : Str := "hello".data

/-- A concrete record used in retrieval instances. -/
def bookA : Book := ⟨"1".data, "x".data, none, none, none⟩

/-- The word `"tale"` used in concrete scoring instances. -/
def wordTale : Str := "tale".data

/-- A word far from every text word, used in concrete scoring instances. -/
def wordZzz : Str := "zzzzzz".data

/-- A two-word query whose second word matches nothing. -/
def q2c : Str := "hobbit zzzzzz".data

/-- A two-word field value containing only the first query word. -/
def t2c : Str := "hobbit tale".data

/-- First of 1001 queries with pairwise-distinct nonempty normalizations. -/
def witHead : Str := List.replicate 1 'a'

/-- The remaining 1000 queries: `"aa"`, `"aaa"`, ...: pairwise-distinct
lengths, so pairwise-distinct normalizations. -/
def witTail : List Str :=
  (List.range 1000).map (fun n => List.replicate (n + 2) 'a')

/- ------------------------------------------------------------------ -/
/- Helper lemmas                                                       -/
/- ------------------------------------------------------------------ -/

/-- The recurrence the dynamic-programming matrix of
`FuzzySearch.levenshteinDistance` fills in at each inner cell. -/
theorem lev_cons_cons (x y : Char) (xs ys : Str) :
    lev (x :: xs) (y :: ys) =
      min (lev xs ys + (if x = y then 0 else 1))
        (min (lev (x :: xs) ys + 1) (lev xs (y :: ys) + 1)) := rfl

/-- Deleting all characters of the first string is the only edit sequence
against the empty second string. -/
theorem lev_nil_right (s : Str) : lev s [] = s.length := by
  induction s with
  | nil => rfl
  | cons x xs ih => simp [lev, levAux, ih]

/-- Sanity check: the distance from the spec's concrete scenario list. -/
theorem lev_kitten_sitting : lev ("kitten".data) ("sitting".data) = 3 := by decide

/-- Sanity check: normalization lower-cases, strips punctuation, collapses
whitespace and trims. -/
theorem normalize_sanity :
    normalize ("  Harry   Potter!".data) = "harry potter".data := by decide

/-- A successful association-list lookup returns a stored pair. -/
theorem mem_of_lookup {l : List (Char × Char)} {a b : Char}
    (h : l.lookup a = some b) : (a, b) ∈ l := by
  induction l with
  | nil => simp [List.lookup] at h
  | cons x xs ih =>
    rw [List.lookup] at h
    split at h
    · next heq =>
      simp at heq
      cases h
      simp [heq]
    · simp [ih h]

/-- Lower-casing a code point is idempotent: the lower-case images are not
themselves upper-case letters. -/
theorem jsToLower_idem (c : Char) : jsToLower (jsToLower c) = jsToLower c := by
  unfold jsToLower
  cases h : upperLowerPairs.lookup c with
  | none => simp [h]
  | some v =>
    have hm : (c, v) ∈ upperLowerPairs := mem_of_lookup h
    have hall : ∀ p ∈ upperLowerPairs, upperLowerPairs.lookup p.2 = none := by decide
    simp [h, hall _ hm]

/-- Mapping a function that fixes every element of a list is the identity. -/
theorem map_eq_self_of {f : Char → Char} {l : Str} (h : ∀ c ∈ l, f c = c) :
    l.map f = l := by
  induction l with
  | nil => rfl
  | cons x xs ih =>
    simp only [List.map_cons, h x (by simp)]
    rw [ih (fun c hc => h c (by simp [hc]))]

/-- Characters of a collapsed string come from the input or are the single
space the scanner emits for a whitespace run. -/
theorem mem_collapseWsAux {c : Char} :
    ∀ (l : Str) (flag : Bool), c ∈ collapseWsAux flag l → c = ' ' ∨ c ∈ l := by
  intro l
  induction l with
  | nil => intro flag h; simp [collapseWsAux] at h
  | cons d ds ih =>
    intro flag h
    rw [collapseWsAux] at h
    by_cases hd : jsIsSpace d
    · rw [if_pos hd] at h
      cases flag with
      | true =>
        rcases ih true h with h' | h'
        · exact Or.inl h'
        · exact Or.inr (by simp [h'])
      | false =>
        rcases List.mem_cons.mp h with h' | h'
        · exact Or.inl h'
        · rcases ih true h' with h'' | h''
          · exact Or.inl h''
          · exact Or.inr (by simp [h''])
    · rw [if_neg hd] at h
      rcases List.mem_cons.mp h with h' | h'
      · exact Or.inr (by simp [h'])
      · rcases ih false h' with h'' | h''
        · exact Or.inl h''
        · exact Or.inr (by simp [h''])

/-- Trimming only removes characters. -/
theorem mem_trimWs {c : Char} {l : Str} (h : c ∈ trimWs l) : c ∈ l :=
  (List.dropWhile_sublist jsIsSpace).subset
    ((List.rdropWhile_prefix jsIsSpace (l.dropWhile jsIsSpace)).sublist.subset h)

/-- A list whose head fails the predicate is unchanged by `dropWhile`. -/
theorem dropWhile_eq_self_of_head {p : Char → Bool} {l : Str}
    (h : ∀ c, l.head? = some c → p c = false) : l.dropWhile p = l := by
  cases l with
  | nil => rfl
  | cons a as => simp [List.dropWhile_cons, h a rfl]

/-- The head surviving a `dropWhile` fails the predicate. -/
theorem head?_dropWhile_false {p : Char → Bool} {l : Str} {c : Char}
    (h : (l.dropWhile p).head? = some c) : p c = false := by
  cases hY : l.dropWhile p with
  | nil => rw [hY] at h; cases h
  | cons a as =>
    rw [hY] at h
    have hne : l.dropWhile p ≠ [] := by simp [hY]
    have hhead := List.head_dropWhile_not p l hne
    have : (l.dropWhile p).head hne = a := by simp [hY]
    rw [this] at hhead
    cases h
    exact hhead

/-- JavaScript `trim` is idempotent. -/
theorem trimWs_idem (l : Str) : trimWs (trimWs l) = trimWs l := by
  unfold trimWs
  have h1 : List.dropWhile jsIsSpace
      (List.rdropWhile jsIsSpace (l.dropWhile jsIsSpace)) =
      List.rdropWhile jsIsSpace (l.dropWhile jsIsSpace) := by
    apply dropWhile_eq_self_of_head
    intro c hc
    obtain ⟨rest, hrest⟩ := List.rdropWhile_prefix jsIsSpace (l.dropWhile jsIsSpace)
    have hY : (l.dropWhile jsIsSpace).head? = some c := by
      rw [← hrest, List.head?_append, hc]
      rfl
    exact head?_dropWhile_false hY
  rw [h1, List.rdropWhile_idempotent]

/-- The collapse scanner emits no whitespace character other than the single
space standing for a run. -/
theorem collapseWsAux_space_eq {c : Char} :
    ∀ (l : Str) (flag : Bool), c ∈ collapseWsAux flag l →
      jsIsSpace c = true → c = ' ' := by
  intro l
  induction l with
  | nil => intro flag h; simp [collapseWsAux] at h
  | cons d ds ih =>
    intro flag h hc
    rw [collapseWsAux] at h
    by_cases hd : jsIsSpace d
    · rw [if_pos hd] at h
      cases flag with
      | true => exact ih true h hc
      | false =>
        rcases List.mem_cons.mp h with h' | h'
        · exact h'
        · exact ih true h' hc
    · rw [if_neg hd] at h
      rcases List.mem_cons.mp h with h' | h'
      · rw [h'] at hc; rw [hc] at hd; exact absurd rfl hd
      · exact ih false h' hc

/-- The collapse scanner never emits two adjacent whitespace characters, and
in run-swallowing state its first emitted character is not whitespace. -/
theorem collapseWsAux_sep :
    ∀ (l : Str), (∀ flag, List.Chain' noTwoSpaces (collapseWsAux flag l)) ∧
      (∀ c, (collapseWsAux true l).head? = some c → jsIsSpace c = false) := by
  intro l
  induction l with
  | nil => exact ⟨fun _ => List.chain'_nil, fun c h => by cases h⟩
  | cons d ds ih =>
    by_cases hd : jsIsSpace d
    · constructor
      · intro flag
        cases flag with
        | true => rw [collapseWsAux, if_pos hd]; exact ih.1 true
        | false =>
          rw [collapseWsAux, if_pos hd]
          refine List.chain'_cons'.mpr ⟨?_, ih.1 true⟩
          intro y hy
          have := ih.2 y hy
          intro hcon
          rw [this] at hcon
          exact absurd hcon.2 (by simp)
      · intro c h
        rw [collapseWsAux, if_pos hd] at h
        exact ih.2 c h
    · constructor
      · intro flag
        rw [collapseWsAux, if_neg hd]
        refine List.chain'_cons'.mpr ⟨?_, ih.1 false⟩
        intro y _
        intro hcon
        exact absurd hcon.1 (by simp [hd])
      · intro c h
        rw [collapseWsAux, if_neg hd] at h
        cases h
        simp [hd]

/-- A string whose whitespace is exactly single spaces separating non-space
material is a fixed point of the collapse scanner. -/
theorem collapseWsAux_fix :
    ∀ (l : Str), (∀ c ∈ l, jsIsSpace c = true → c = ' ') →
      List.Chain' noTwoSpaces l →
      collapseWsAux false l = l ∧
        ((∀ c, l.head? = some c → jsIsSpace c = false) →
          collapseWsAux true l = l) := by
  intro l
  induction l with
  | nil => exact fun _ _ => ⟨rfl, fun _ => rfl⟩
  | cons d ds ih =>
    intro ha hch
    have ha' : ∀ c ∈ ds, jsIsSpace c = true → c = ' ' :=
      fun c hc => ha c (by simp [hc])
    have ihds := ih ha' hch.tail
    by_cases hd : jsIsSpace d
    · have hd' : d = ' ' := ha d (by simp) hd
      have hhead : ∀ c, ds.head? = some c → jsIsSpace c = false := by
        intro c hc
        have hrel := (List.chain'_cons'.mp hch).1 c hc
        by_contra hcon
        exact hrel ⟨hd, by simpa using hcon⟩
      constructor
      · rw [collapseWsAux, if_pos hd, ihds.2 hhead, hd']
        simp
      · intro hcond
        exact absurd (hcond d rfl) (by simp [hd])
    · constructor
      · rw [collapseWsAux, if_neg hd, ihds.1]
      · intro _
        rw [collapseWsAux, if_neg hd, ihds.1]

/-- The output of `normalize` is made of single spaces and kept characters of
the lower-cased input. -/
theorem normalize_chars {s : Str} {c : Char} (h : c ∈ normalize s) :
    c = ' ' ∨ c ∈ (jsToLowerStr s).filter isWordChar := by
  unfold normalize at h
  exact mem_collapseWsAux _ false (mem_trimWs h)

/-- C9 — `FuzzySearch.normalize` is idempotent: its output is already
lower-case, contains only kept characters, has collapsed single-space
whitespace, and carries no leading or trailing whitespace, so a second pass
changes nothing. -/
theorem claim9_normalize_idem (s : Str) : normalize (normalize s) = normalize s := by
  have hmem : ∀ c ∈ normalize s, c = ' ' ∨ c ∈ (jsToLowerStr s).filter isWordChar :=
    fun c hc => normalize_chars hc
  have hmap : jsToLowerStr (normalize s) = normalize s := by
    apply map_eq_self_of
    intro c hc
    rcases hmem c hc with h' | h'
    · rw [h']; decide
    · obtain ⟨c', _, hc'⟩ := List.mem_map.mp (List.mem_filter.mp h').1
      rw [← hc']
      exact jsToLower_idem c'
  have hfilter : (normalize s).filter isWordChar = normalize s := by
    apply List.filter_eq_self.mpr
    intro c hc
    rcases hmem c hc with h' | h'
    · rw [h']; decide
    · exact (List.mem_filter.mp h').2
  have hspace : ∀ c ∈ normalize s, jsIsSpace c = true → c = ' ' := by
    intro c hc hsp
    exact collapseWsAux_space_eq _ false (mem_trimWs hc) hsp
  have hchain : List.Chain' noTwoSpaces (normalize s) := by
    have hx := (collapseWsAux_sep ((jsToLowerStr s).filter isWordChar)).1 false
    have h1 : List.Chain' noTwoSpaces
        ((collapseWs ((jsToLowerStr s).filter isWordChar)).dropWhile jsIsSpace) :=
      hx.suffix (List.dropWhile_suffix jsIsSpace)
    exact h1.prefix (List.rdropWhile_prefix jsIsSpace _)
  have hcol : collapseWsAux false (normalize s) = normalize s :=
    (collapseWsAux_fix (normalize s) hspace hchain).1
  show trimWs (collapseWs ((jsToLowerStr (normalize s)).filter isWordChar)) = normalize s
  rw [hmap, hfilter]
  show trimWs (collapseWsAux false (normalize s)) = normalize s
  rw [hcol]
  exact trimWs_idem _

/-- The variation set the expander produces for the Latin dictionary word
`"boi"`: the word itself and its Bangla counterpart. -/
theorem getAllVariations_boi : getAllVariations qBoi = [qBoi, qBoiBn] := by decide

/-- The variation set the expander produces for `"বই"`: the word itself and
its Latin counterpart, so the two variation sets mutually contain each
other. -/
theorem getAllVariations_boiBn : getAllVariations qBoiBn = [qBoiBn, qBoi] := by decide

/-- C1 — the claim fails on the code: for the dictionary-mapped query
`"boi"` (and equally `"বই"`) the recursion of
`SearchRanking.calculateScore` never reaches a base case, because each word's
variation set contains the other and the recursive call is made for every
variation different from the current query.  In the fuel-indexed embedding
the score is `none` at every call depth, for every record; in JavaScript the
call `calculateScore('boi', book)` recurses without bound and aborts with a
stack overflow instead of running to completion. -/
theorem claim1_boi_score_diverges (fuel : Nat) (book : Book) :
    calculateScoreF fuel qBoi book = none ∧
      calculateScoreF fuel qBoiBn book = none := by
  induction fuel generalizing book with
  | zero => exact ⟨rfl, rfl⟩
  | succ n ih =>
    have hne1 : ¬(qBoiBn = qBoi) := by decide
    have hne2 : ¬(qBoi = qBoiBn) := by decide
    constructor
    · rw [calculateScoreF, getAllVariations_boi]
      simp [hne1, (ih book).2]
    · rw [calculateScoreF, getAllVariations_boiBn]
      simp [hne2, (ih book).1]

/-- The Levenshtein distance is symmetric in its two strings. -/
theorem lev_symm (a : Str) : ∀ (b : Str), lev a b = lev b a := by
  induction a with
  | nil =>
    intro b
    rw [show lev [] b = b.length from rfl, lev_nil_right]
  | cons x xs ihx =>
    intro b
    induction b with
    | nil => rw [lev_nil_right, show lev [] (x :: xs) = (x :: xs).length from rfl]
    | cons y ys ihy =>
      rw [lev_cons_cons, lev_cons_cons, ihx ys, ihy, ihx (y :: ys)]
      have hind : (if x = y then 0 else 1) = (if y = x then 0 else 1) := by
        by_cases h : x = y
        · simp [h]
        · rw [if_neg h, if_neg (fun h' : y = x => h h'.symm)]
      rw [hind]
      omega

/-- C8 — `FuzzySearch.similarity` is symmetric: when the lengths differ both
argument orders select the same longer/shorter pair, and at equal lengths the
two distance computations agree because the Levenshtein distance is
symmetric. -/
theorem claim8_similarity_symm (a b : Str) : similarity a b = similarity b a := by
  rcases lt_trichotomy a.length b.length with h | h | h
  · simp only [similarity, if_pos h, if_neg (asymm h)]
  · simp only [similarity, if_neg (by omega : ¬b.length < a.length),
      if_neg (by omega : ¬a.length < b.length)]
    rw [lev_symm b a, ← h]
  · simp only [similarity, if_pos h, if_neg (asymm h)]

/-- Every string contains the empty string (`"".includes("")` included). -/
theorem strContains_nil (hay : Str) : strContains hay [] = true := by
  rw [strContains.eq_def]
  simp [List.isPrefixOf]

/-- C3 — the claim fails on the code: a query whose normalization is empty is
treated as matching EVERYTHING, not nothing.  `fuzzyMatch` returns true for
every text and `getMatchScore` returns the maximal score 1, because
JavaScript substring containment of the empty string always succeeds, so an
empty or punctuation-only query matches the entire catalog instead of
short-circuiting to an empty result as the specification requires. -/
theorem claim3_empty_query_vacuous (query text : Str)
    (h : normalize query = []) :
    fuzzyMatch query text (3/5) = true ∧ getMatchScore query text = 1 := by
  constructor
  · simp [fuzzyMatch, h, strContains_nil]
  · simp [getMatchScore, h, strContains_nil]

/-- Witness for C3 at the failing input: the punctuation-only query `"!!!"`
normalizes to the empty string yet fuzzy-matches the unrelated text
`"hobbit"` with full score. -/
theorem claim3_witness :
    normalize qBang = [] ∧ fuzzyMatch qBang tHobbit (3/5) = true ∧
      getMatchScore qBang tHobbit = 1 :=
  ⟨by decide, (claim3_empty_query_vacuous qBang tHobbit (by decide)).1,
    (claim3_empty_query_vacuous qBang tHobbit (by decide)).2⟩

/-- C10 — `SuggestionEngine.getSuggestions` short-circuits an empty
normalized partial query to the empty suggestion list, for every buffer state
and limit, instead of matching every buffered entry by empty-substring
containment. -/
theorem claim10_empty_suggestions (buffer : List Str) (partialQuery : Str)
    (limit : Nat) (h : normalize partialQuery = []) :
    getSuggestions buffer partialQuery limit = [] := by
  simp [getSuggestions, h]

/-- Witness for C10: the punctuation-only partial query `"!!!"` yields no
suggestions from a nonempty buffer. -/
theorem claim10_witness :
    normalize qBang = [] ∧ getSuggestions [tHobbit] qBang 5 = [] :=
  ⟨by decide, claim10_empty_suggestions [tHobbit] qBang 5 (by decide)⟩

/-- A global replace whose pattern occurs nowhere in the string changes
nothing, whatever the scan fuel. -/
theorem replaceAllAux_id {pat rep : Str} :
    ∀ (n : Nat) (s : Str), strContains s pat = false →
      replaceAllAux pat rep n s = s := by
  intro n
  induction n with
  | zero => intro s _; rfl
  | succ m ih =>
    intro s h
    have hnp : pat.isPrefixOf s = false := by
      cases hb : pat.isPrefixOf s with
      | false => rfl
      | true => rw [strContains.eq_def, if_pos hb] at h; cases h
    have hp : pat ≠ [] := by
      intro he
      rw [he] at hnp
      simp [List.isPrefixOf] at hnp
    rw [replaceAllAux.eq_def]
    simp only [if_neg hp, hnp, Bool.false_eq_true, if_false]
    rw [strContains.eq_def, hnp] at h
    simp only [Bool.false_eq_true, if_false] at h
    cases s with
    | nil => rfl
    | cons c t =>
      replace h : strContains t pat = false := h
      show c :: replaceAllAux pat rep m t = c :: t
      rw [ih t h]

/-- Running the dictionary passes over a string none of the patterns occurs
in leaves the string unchanged. -/
theorem foldl_replaceAll_id :
    ∀ (entries : List (Str × Str)) (init : Str),
      (∀ e ∈ entries, strContains init e.1 = false) →
      entries.foldl (fun result e => replaceAll result e.1 e.2) init = init := by
  intro entries
  induction entries with
  | nil => intro init _; rfl
  | cons e es ih =>
    intro init h
    rw [List.foldl_cons]
    have h1 : replaceAll init e.1 e.2 = init :=
      replaceAllAux_id _ _ (h e (by simp))
    rw [h1]
    exact ih init (fun e' he' => h e' (by simp [he']))

/-- C5 counterexample — the claim as stated is false: the query `"Hello"` is
matched by no transliteration-dictionary entry, yet `getAllVariations`
returns two variations, because both transliteration passes lower-case their
input before substituting, so the unchanged original and its lower-cased copy
both survive deduplication. -/
theorem claim5_counterexample :
    dictHasMatch qHelloU = false ∧
      getAllVariations qHelloU = [qHelloU, qHelloL] ∧
      getAllVariations qHelloU ≠ [qHelloU] :=
  ⟨by decide, by decide, by decide⟩

/-- C5 amended — for a query matched by no dictionary entry AND already fully
lower-case, `getAllVariations` is the singleton of the original query:
both substitution passes then reduce to the identity and deduplication
collapses the three copies. -/
theorem claim5_lowercase_singleton (query : Str)
    (hmatch : dictHasMatch query = false)
    (hlower : jsToLowerStr query = query) :
    getAllVariations query = [query] := by
  have hsplit := hmatch
  simp only [dictHasMatch, Bool.or_eq_false_iff, List.any_eq_false] at hsplit
  have h1 : banglaToEng query = jsToLowerStr query := by
    apply foldl_replaceAll_id
    intro e he
    have := hsplit.1 e he
    simpa using this
  have h2 : engToBangla query = jsToLowerStr query := by
    apply foldl_replaceAll_id
    intro e he
    have := hsplit.2 e he
    simpa using this
  rw [getAllVariations, h1, h2, hlower]
  simp [dedupFirst, dedupFirstAux]

/-- Witness for the amended C5: the all-lower-case unmatched query `"hello"`
has itself as its only variation. -/
theorem claim5_witness :
    dictHasMatch qHelloL = false ∧ jsToLowerStr qHelloL = qHelloL ∧
      getAllVariations qHelloL = [qHelloL] :=
  ⟨by decide, by decide, claim5_lowercase_singleton qHelloL (by decide) (by decide)⟩

/-- The collapse scanner is the identity on whitespace-free strings. -/
theorem collapseWsAux_of_no_space :
    ∀ (l : Str) (flag : Bool), (∀ c ∈ l, jsIsSpace c = false) →
      collapseWsAux flag l = l := by
  intro l
  induction l with
  | nil => intro flag _; rfl
  | cons d ds ih =>
    intro flag h
    have hd : jsIsSpace d = false := h d (by simp)
    rw [collapseWsAux, if_neg (by simp [hd])]
    rw [ih false (fun c hc => h c (by simp [hc]))]

/-- Trimming is the identity on whitespace-free strings. -/
theorem trimWs_of_no_space {l : Str} (h : ∀ c ∈ l, jsIsSpace c = false) :
    trimWs l = l := by
  unfold trimWs
  have h1 : l.dropWhile jsIsSpace = l :=
    dropWhile_eq_self_of_head (fun c hc => h c (List.mem_of_mem_head? (by simp [hc])))
  rw [h1, List.rdropWhile]
  have h2 : l.reverse.dropWhile jsIsSpace = l.reverse :=
    dropWhile_eq_self_of_head (fun c hc =>
      h c (List.mem_reverse.mp (List.mem_of_mem_head? (by simp [hc]))))
  rw [h2, List.reverse_reverse]

/-- Normalization is the identity on strings of plain characters: already
lower-case, kept by the stripping regex, and not whitespace. -/
theorem normalize_of_plain {l : Str}
    (h : ∀ c ∈ l, jsToLower c = c ∧ isWordChar c = true ∧ jsIsSpace c = false) :
    normalize l = l := by
  unfold normalize jsToLowerStr
  rw [map_eq_self_of (fun c hc => (h c hc).1),
    List.filter_eq_self.mpr (fun c hc => (h c hc).2.1)]
  show trimWs (collapseWsAux false l) = l
  rw [collapseWsAux_of_no_space l false (fun c hc => (h c hc).2.2),
    trimWs_of_no_space (fun c hc => (h c hc).2.2)]

/-- Runs of the letter `a` are fixed points of normalization. -/
theorem normalize_replicate_a (n : Nat) :
    normalize (List.replicate n 'a') = List.replicate n 'a' :=
  normalize_of_plain (fun c hc => by
    rw [List.eq_of_mem_replicate hc]
    exact ⟨by decide, by decide, by decide⟩)

/-- While the suggestion buffer stays at or below its 1000-entry bound, the
`addQuery` fold of queries with fresh nonempty normalizations appends their
normalizations in order. -/
theorem addQuery_foldl_append :
    ∀ (qs : List Str) (acc : List Str),
      (∀ q ∈ qs, normalize q ≠ []) →
      (∀ q ∈ qs, normalize q ∉ acc) →
      (qs.map normalize).Nodup →
      acc.length + qs.length ≤ 1000 →
      qs.foldl addQuery acc = acc ++ qs.map normalize := by
  intro qs
  induction qs with
  | nil => intro acc _ _ _ _; simp
  | cons q qs ih =>
    intro acc hne hfresh hnd hlen
    have hndc : normalize q ∉ qs.map normalize ∧ (qs.map normalize).Nodup := by
      rw [List.map_cons, List.nodup_cons] at hnd
      exact hnd
    have hlen' : acc.length + qs.length + 1 ≤ 1000 := by
      rw [List.length_cons] at hlen
      omega
    have hstep : addQuery acc q = acc ++ [normalize q] := by
      have hlt : ¬(1000 < (acc ++ [normalize q]).length) := by
        rw [List.length_append]
        simp only [List.length_cons, List.length_nil]
        omega
      rw [addQuery, if_pos ⟨hne q (by simp), hfresh q (by simp)⟩, if_neg hlt]
    have hfresh' : ∀ q' ∈ qs, normalize q' ∉ acc ++ [normalize q] := by
      intro q' hq'
      simp only [List.mem_append, List.mem_singleton]
      push_neg
      refine ⟨hfresh q' (by simp [hq']), ?_⟩
      intro hEq
      exact hndc.1 (hEq ▸ List.mem_map_of_mem normalize hq')
    have hlen'' : (acc ++ [normalize q]).length + qs.length ≤ 1000 := by
      rw [List.length_append]
      simp only [List.length_cons, List.length_nil]
      omega
    rw [List.foldl_cons, hstep,
      ih (acc ++ [normalize q]) (fun q' hq' => hne q' (by simp [hq']))
        hfresh' hndc.2 hlen'']
    simp

/-- C7 — `SuggestionEngine.addQuery` keeps the buffer FIFO-bounded: recording
is a no-op on an empty normalization or an already-buffered normalization;
and after folding 1001 queries with pairwise-distinct nonempty
normalizations into the empty buffer, exactly 1000 entries remain and the
first query's normalization has been evicted. -/
theorem claim7_suggestion_bound :
    (∀ (buffer : List Str) (query : Str), normalize query = [] →
        addQuery buffer query = buffer) ∧
    (∀ (buffer : List Str) (query : Str), normalize query ∈ buffer →
        addQuery buffer query = buffer) ∧
    (∀ (q0 : Str) (rest : List Str),
        (q0 :: rest).length = 1001 →
        ((q0 :: rest).map normalize).Nodup →
        (∀ q ∈ q0 :: rest, normalize q ≠ []) →
        ((q0 :: rest).foldl addQuery []).length = 1000 ∧
          normalize q0 ∉ (q0 :: rest).foldl addQuery []) := by
  refine ⟨?_, ?_, ?_⟩
  · intro buffer query h
    rw [addQuery, if_neg]
    intro hcon
    exact hcon.1 h
  · intro buffer query h
    rw [addQuery, if_neg]
    intro hcon
    exact hcon.2 h
  · intro q0 rest hlen hnd hne
    have hrl : rest.length = 1000 := by simpa using hlen
    obtain ⟨z, hz⟩ := List.length_eq_one.mp
      (by rw [List.length_drop, hrl] : (rest.drop 999).length = 1)
    have hsplit : q0 :: rest = (q0 :: rest.take 999) ++ [z] := by
      rw [show (q0 :: rest.take 999) ++ [z] = q0 :: (rest.take 999 ++ [z])
        from rfl, ← hz, List.take_append_drop]
    have hyslen : (q0 :: rest.take 999).length = 1000 := by
      simp only [List.length_cons, List.length_take, hrl]
      omega
    rw [hsplit] at hnd hne ⊢
    rw [List.map_append] at hnd
    have hndys := (List.nodup_append.mp hnd).1
    have hdisj := (List.nodup_append.mp hnd).2.2
    have hzfresh : normalize z ∉ (q0 :: rest.take 999).map normalize := by
      intro hcon
      exact (List.disjoint_left.mp hdisj hcon) (by simp)
    have hmemys : ∀ q ∈ q0 :: rest.take 999, q ∈ (q0 :: rest.take 999) ++ [z] :=
      fun q hq => List.mem_append.mpr (Or.inl hq)
    have hys : (q0 :: rest.take 999).foldl addQuery [] =
        (q0 :: rest.take 999).map normalize := by
      have := addQuery_foldl_append (q0 :: rest.take 999) []
        (fun q hq => hne q (hmemys q hq))
        (fun q _ => by simp)
        hndys
        (by rw [hyslen]; simp)
      simpa using this
    rw [List.foldl_append, hys]
    have hstep : addQuery ((q0 :: rest.take 999).map normalize) z =
        ((q0 :: rest.take 999).map normalize ++ [normalize z]).drop 1 := by
      have hgt : 1000 < ((q0 :: rest.take 999).map normalize ++ [normalize z]).length := by
        rw [List.length_append, List.length_map, hyslen]
        simp
      rw [addQuery, if_pos ⟨hne z (by simp), hzfresh⟩, if_pos hgt]
    have hdrop : ((q0 :: rest.take 999).map normalize ++ [normalize z]).drop 1 =
        ((rest.take 999).map normalize) ++ [normalize z] := by
      rw [List.drop_append_of_le_length (by simp)]
      simp
    rw [List.foldl_cons, List.foldl_nil, hstep, hdrop]
    have hlenfin : ((rest.take 999).map normalize ++ [normalize z]).length = 1000 := by
      rw [List.length_append, List.length_map, List.length_take, hrl]
      simp
    have hn0 : normalize q0 ∉ (rest.take 999).map normalize := by
      have h' : (normalize q0 :: (rest.take 999).map normalize).Nodup := by
        simpa using hndys
      exact (List.nodup_cons.mp h').1
    have hn1 : normalize q0 ≠ normalize z := by
      intro hEq
      apply hzfresh
      rw [← hEq]
      simp
    refine ⟨hlenfin, ?_⟩
    simp only [List.mem_append, List.mem_singleton]
    push_neg
    exact ⟨hn0, hn1⟩

/-- Witness for C7: a no-op on a punctuation-only query, a no-op on an
already-buffered normalization, and the 1001 queries `"a"`, `"aa"`, ...
leaving exactly 1000 entries with the first query's normalization evicted. -/
theorem claim7_witness :
    addQuery [] qBang = [] ∧
      addQuery [qHelloL] qHelloL = [qHelloL] ∧
      (((witHead :: witTail).foldl addQuery []).length = 1000 ∧
        normalize witHead ∉ (witHead :: witTail).foldl addQuery []) := by
  have h1 : (witHead :: witTail).length = 1001 := by
    simp [witHead, witTail]
  have hmap : (witHead :: witTail).map normalize = witHead :: witTail := by
    simp only [List.map_cons, witHead, normalize_replicate_a, witTail,
      List.map_map, Function.comp_def]
  have h2 : ((witHead :: witTail).map normalize).Nodup := by
    rw [hmap, List.nodup_cons]
    constructor
    · intro hcon
      simp only [witTail, List.mem_map] at hcon
      obtain ⟨n, _, hn⟩ := hcon
      have := congrArg List.length hn
      simp [witHead] at this
    · exact List.Nodup.map
        (fun a b hab => by
          have := congrArg List.length hab
          simpa using this)
        (List.nodup_range 1000)
  have h3 : ∀ q ∈ witHead :: witTail, normalize q ≠ [] := by
    intro q hq
    rcases List.mem_cons.mp hq with h | h
    · rw [h, witHead, normalize_replicate_a]
      simp
    · simp only [witTail, List.mem_map] at h
      obtain ⟨n, _, hn⟩ := h
      rw [← hn, normalize_replicate_a]
      simp
  exact ⟨claim7_suggestion_bound.1 [] qBang (by decide),
    claim7_suggestion_bound.2.1 [qHelloL] qHelloL (by decide),
    claim7_suggestion_bound.2.2 witHead witTail h1 h2 h3⟩

/-- The accumulating loop of `getMatchScore` computes the sum of the
best-similarity values over the query words whose best exceeds 0.6, together
with the count of those words. -/
theorem score_foldl_eval (tws : List Str) :
    ∀ (ws : List Str) (a : ℚ) (n : Nat),
      ws.foldl (fun acc queryWord =>
        let bestMatch := wordBest tws queryWord
        if 3/5 < bestMatch then (acc.1 + bestMatch, acc.2 + 1) else acc) (a, n) =
      (a + ((ws.filter (fun w => decide (3/5 < wordBest tws w))).map (wordBest tws)).sum,
        n + (ws.filter (fun w => decide (3/5 < wordBest tws w))).length) := by
  intro ws
  induction ws with
  | nil => intro a n; simp
  | cons w ws ih =>
    intro a n
    have hstep : (let bestMatch := wordBest tws w
        if 3/5 < bestMatch then
          (((a : ℚ), (n : Nat)).1 + bestMatch, ((a : ℚ), (n : Nat)).2 + 1)
        else ((a : ℚ), (n : Nat))) =
        if 3/5 < wordBest tws w then (a + wordBest tws w, n + 1) else (a, n) := rfl
    rw [List.foldl_cons, hstep, List.filter_cons]
    by_cases hw : 3/5 < wordBest tws w
    · rw [if_pos hw, if_pos (decide_eq_true hw), ih]
      simp only [List.map_cons, List.sum_cons, List.length_cons, Prod.mk.injEq]
      constructor
      · ring
      · omega
    · rw [if_neg hw, if_neg (by simp [decide_eq_false hw]), ih]

/-- C2 amended — on the no-containment path, `getMatchScore` averages the
best-similarity values of the query words strictly exceeding the 0.6 bar,
but divides by the TOTAL number of query words (words failing the bar still
count in the denominator); the score is 0 when no query word exceeds the
bar. -/
theorem claim2_denominator_total_words (query text : Str)
    (h : strContains (normalize text) (normalize query) = false) :
    getMatchScore query text =
      (let queryWords := (normalize query).splitOn ' '
       let textWords := (normalize text).splitOn ' '
       let cleared := queryWords.filter (fun w => decide (3/5 < wordBest textWords w))
       if cleared = [] then 0
       else (cleared.map (wordBest textWords)).sum / (queryWords.length : ℚ)) := by
  simp only [getMatchScore]
  rw [if_neg (by simp [h]), score_foldl_eval]
  simp only [zero_add]
  by_cases hc : ((normalize query).splitOn ' ').filter
      (fun w => decide (3/5 < wordBest ((normalize text).splitOn ' ') w)) = []
  · simp [hc]
  · rw [if_pos (List.length_pos.mpr hc), if_neg hc]

/-- Witness for the amended C2 at the one-word query `"hobbit"` against the
field `"tale"`: the field does not contain the query, and the score follows
the total-word-count formula. -/
theorem claim2_witness :
    strContains (normalize wordTale) (normalize tHobbit) = false ∧
      getMatchScore tHobbit wordTale =
        (let queryWords := (normalize tHobbit).splitOn ' '
         let textWords := (normalize wordTale).splitOn ' '
         let cleared := queryWords.filter (fun w => decide (3/5 < wordBest textWords w))
         if cleared = [] then 0
         else (cleared.map (wordBest textWords)).sum / (queryWords.length : ℚ)) :=
  ⟨by decide, claim2_denominator_total_words tHobbit wordTale (by decide)⟩

/-- C2 counterexample — the claim as stated is false on the code: for the
query `"hobbit zzzzzz"` against the field `"hobbit tale"` (no containment),
the word `"hobbit"` scores a best similarity of 1 and `"zzzzzz"` scores 0,
so the spec's cleared-words average is 1/1 = 1, while the code divides the
same sum by the total word count and returns 1/2. -/
theorem claim2_counterexample :
    strContains (normalize t2c) (normalize q2c) = false ∧
      getMatchScore q2c t2c = 1/2 ∧ specFieldMatchScore q2c t2c = 1 ∧
      getMatchScore q2c t2c ≠ specFieldMatchScore q2c t2c := by
  have hq : normalize q2c = q2c := by decide
  have ht : normalize t2c = t2c := by decide
  have hqs : q2c.splitOn ' ' = [tHobbit, wordZzz] := by decide
  have hts : t2c.splitOn ' ' = [tHobbit, wordTale] := by decide
  have hcont : strContains t2c q2c = false := by decide
  have e1 : tHobbit.length = 6 := by decide
  have e2 : wordTale.length = 4 := by decide
  have e3 : wordZzz.length = 6 := by decide
  have sHH : similarity tHobbit tHobbit = 1 := by
    have d1 : lev tHobbit tHobbit = 0 := by decide
    norm_num [similarity, e1, d1]
  have sHT : similarity tHobbit wordTale = 0 := by
    have d1 : lev tHobbit wordTale = 6 := by decide
    norm_num [similarity, e1, e2, d1]
  have sZH : similarity wordZzz tHobbit = 0 := by
    have d1 : lev tHobbit wordZzz = 6 := by decide
    norm_num [similarity, e1, e3, d1]
  have sZT : similarity wordZzz wordTale = 0 := by
    have d1 : lev wordZzz wordTale = 6 := by decide
    norm_num [similarity, e2, e3, d1]
  have bH : wordBest [tHobbit, wordTale] tHobbit = 1 := by
    simp only [wordBest, List.map_cons, List.map_nil, sHH, sHT, maxQ,
      List.foldl_cons, List.foldl_nil]
    norm_num [max_def]
  have bZ : wordBest [tHobbit, wordTale] wordZzz = 0 := by
    simp only [wordBest, List.map_cons, List.map_nil, sZH, sZT, maxQ,
      List.foldl_cons, List.foldl_nil]
    norm_num [max_def]
  have p1 : decide (3/5 < wordBest [tHobbit, wordTale] tHobbit) = true := by
    rw [bH]; exact decide_eq_true (by norm_num)
  have p2 : decide (3/5 < wordBest [tHobbit, wordTale] wordZzz) = false := by
    rw [bZ]; exact decide_eq_false (by norm_num)
  have hg : getMatchScore q2c t2c = 1/2 := by
    simp only [getMatchScore, hq, ht, hqs, hts]
    rw [if_neg (by simp [hcont]), score_foldl_eval]
    simp only [List.filter_cons, List.filter_nil, p1, p2, if_true,
      Bool.false_eq_true, if_false, List.map_cons, List.map_nil,
      List.sum_cons, List.sum_nil, List.length_cons, List.length_nil]
    norm_num [bH]
  have hs : specFieldMatchScore q2c t2c = 1 := by
    have p1' : decide (3/5 ≤ wordBest [tHobbit, wordTale] tHobbit) = true := by
      rw [bH]; exact decide_eq_true (by norm_num)
    have p2' : decide (3/5 ≤ wordBest [tHobbit, wordTale] wordZzz) = false := by
      rw [bZ]; exact decide_eq_false (by norm_num)
    simp only [specFieldMatchScore, hq, ht, hqs, hts]
    rw [if_neg (by simp [hcont])]
    simp only [List.filter_cons, List.filter_nil, p1', p2', if_true,
      Bool.false_eq_true, if_false, List.map_cons, List.map_nil,
      List.sum_cons, List.sum_nil, List.length_cons, List.length_nil]
    norm_num [bH]
  exact ⟨by rw [hq, ht]; exact hcont, hg, hs, by rw [hg, hs]; norm_num⟩

/-- A successful scoring pass pairs every catalog item, in order, with a
score: the first components of the scored list are the items themselves. -/
theorem scoreItemsF_fst (fuel : Nat) (query : Str) :
    ∀ (items : List Book) (scored : List (Book × ℚ)),
      scoreItemsF fuel query items = some scored →
      scored.map Prod.fst = items := by
  intro items
  induction items with
  | nil =>
    intro scored h
    rw [scoreItemsF] at h
    cases h
    rfl
  | cons b bs ih =>
    intro scored h
    rw [scoreItemsF] at h
    cases hc : calculateScoreF fuel query b with
    | none => rw [hc] at h; cases h
    | some s =>
      rw [hc] at h
      cases hm : scoreItemsF fuel query bs with
      | none => rw [hm] at h; cases h
      | some xs =>
        rw [hm] at h
        cases h
        rw [List.map_cons, ih xs hm]

/-- A successful ranking pass returns records with pairwise-distinct ids
whenever the catalog it ranks has pairwise-distinct ids: the kept scored
pairs project to a sublist of the catalog and sorting only permutes them. -/
theorem rankResultsF_ids (fuel : Nat) (query : Str) (items : List Book)
    (threshold : ℚ) (hnd : (items.map Book.id).Nodup) :
    ∀ l, rankResultsF fuel query items threshold = some l →
      (l.map Book.id).Nodup := by
  intro l h
  rw [rankResultsF] at h
  cases hm : scoreItemsF fuel query items with
  | none => rw [hm] at h; cases h
  | some scored =>
    rw [hm] at h
    have hfst : scored.map Prod.fst = items := scoreItemsF_fst _ _ _ _ hm
    have hkept : ((scored.filter (fun p => threshold ≤ p.2)).map Prod.fst).Sublist
        (scored.map Prod.fst) :=
      (List.filter_sublist scored).map Prod.fst
    have hkeptnd : (((scored.filter (fun p => threshold ≤ p.2)).map Prod.fst).map
        Book.id).Nodup :=
      (hkept.map Book.id).nodup (by rw [hfst]; exact hnd)
    have hperm := List.perm_insertionSort (fun a b : Book × ℚ => b.2 ≤ a.2)
      (scored.filter (fun p => threshold ≤ p.2))
    have hpermids : ((((scored.filter (fun p => threshold ≤ p.2)).insertionSort
        (fun a b => b.2 ≤ a.2)).map Prod.fst).map Book.id).Perm
        (((scored.filter (fun p => threshold ≤ p.2)).map Prod.fst).map Book.id) :=
      (hperm.map Prod.fst).map Book.id
    replace h := Option.some.inj h
    rw [← h]
    exact hkeptnd.perm hpermids.symm

/-- Merging preserves distinctness of record ids: a record is appended only
when its id is absent from the accumulated list. -/
theorem mergeUnique_ids :
    ∀ (more acc : List Book), (acc.map Book.id).Nodup →
      ((mergeUnique acc more).map Book.id).Nodup := by
  intro more
  induction more with
  | nil => intro acc h; exact h
  | cons b bs ih =>
    intro acc h
    rw [mergeUnique, List.foldl_cons]
    by_cases hb : acc.any (fun existing => existing.id = b.id)
    · rw [if_pos hb]
      exact ih acc h
    · rw [if_neg hb]
      apply ih
      rw [List.map_append, List.nodup_append]
      refine ⟨h, by simp, ?_⟩
      intro x hx
      simp only [List.map_cons, List.map_nil, List.mem_singleton]
      intro hxb
      apply hb
      rw [List.any_eq_true]
      obtain ⟨e, he, hei⟩ := List.mem_map.mp hx
      exact ⟨e, he, by simp [hei, hxb]⟩

/-- Folding `mergeUnique` over any family of variant result lists keeps the
merged ids pairwise distinct. -/
theorem foldl_mergeUnique_ids :
    ∀ (lists : List (List Book)) (acc : List Book),
      (acc.map Book.id).Nodup →
      ((lists.foldl mergeUnique acc).map Book.id).Nodup := by
  intro lists
  induction lists with
  | nil => intro acc h; exact h
  | cons l ls ih =>
    intro acc h
    rw [List.foldl_cons]
    exact ih (mergeUnique acc l) (mergeUnique_ids l acc h)

/-- The variation loop of `searchBooks` — which skips the original query and
merges each variant ranking into the accumulator — equals ranking the
variations other than the query and folding the merges over the resulting
lists. -/
theorem variationMergeF_eq (fuel : Nat) (allBooks : List Book) (query : Str) :
    ∀ (vs : List Str) (acc : List Book),
      variationMergeF fuel allBooks query vs acc =
        (rankVariationsF fuel allBooks
          (vs.filter (fun variation => variation ≠ query))).map
          (fun lists => lists.foldl mergeUnique acc) := by
  intro vs
  induction vs with
  | nil => intro acc; rfl
  | cons v vs ih =>
    intro acc
    rw [variationMergeF, List.filter_cons]
    by_cases hv : v = query
    · have hd : decide (v ≠ query) = false :=
        decide_eq_false (fun hne : v ≠ query => hne hv)
      rw [if_pos hv, if_neg (by simp [hd])]
      exact ih acc
    · have hd : decide (v ≠ query) = true := decide_eq_true hv
      rw [if_neg hv, if_pos (by simp [hd]), rankVariationsF]
      cases hfv : rankResultsF fuel v allBooks (3/10) with
      | none => rfl
      | some vr =>
        show variationMergeF fuel allBooks query vs (mergeUnique acc vr) =
          Option.map (fun lists => List.foldl mergeUnique acc lists)
            (match rankVariationsF fuel allBooks
                (vs.filter (fun variation => variation ≠ query)) with
              | none => none
              | some ls => some (vr :: ls))
        rw [ih (mergeUnique acc vr)]
        cases hm : rankVariationsF fuel allBooks
            (vs.filter (fun variation => variation ≠ query)) with
        | none => rfl
        | some lists => rfl

/-- C4 — the two-tier strategy of `DatabaseManager.searchBooks`: three or
more indexed results are returned exactly as-is with no fuzzy escalation;
fewer than three trigger the full fuzzy path — the whole catalog ranked at
threshold 0.3 for the query plus once per other query variation, merged and
capped. -/
theorem claim4_two_tier (fuel : Nat) (ftsResults allBooks : List Book)
    (query : Str) :
    (3 ≤ ftsResults.length →
      searchBooksF fuel ftsResults allBooks query = some ftsResults) ∧
    (ftsResults.length < 3 →
      searchBooksF fuel ftsResults allBooks query =
        fuzzyEscalationF fuel allBooks query) := by
  constructor
  · intro h
    rw [searchBooksF, if_pos h]
  · intro h
    rw [searchBooksF, fuzzyEscalationF, if_neg (by omega)]
    cases hr : rankResultsF fuel query allBooks (3/10) with
    | none => rfl
    | some ranked =>
      show (match variationMergeF fuel allBooks query (getAllVariations query)
            ranked with
          | none => none
          | some merged => some (merged.take 50)) =
        (match rankVariationsF fuel allBooks
            ((getAllVariations query).filter (fun variation => variation ≠ query)) with
          | none => none
          | some variantLists =>
            some ((variantLists.foldl mergeUnique ranked).take 50))
      rw [variationMergeF_eq]
      cases hm : rankVariationsF fuel allBooks
          ((getAllVariations query).filter (fun variation => variation ≠ query)) with
      | none => rfl
      | some lists => rfl

/-- Witness for C4: with three indexed records the coordinator returns them
as-is; with zero indexed records it runs the escalation path. -/
theorem claim4_witness :
    searchBooksF 0 [bookA, bookA, bookA] [] qHelloL =
        some [bookA, bookA, bookA] ∧
      searchBooksF 0 [] [] qHelloL = fuzzyEscalationF 0 [] qHelloL :=
  ⟨(claim4_two_tier 0 [bookA, bookA, bookA] [] qHelloL).1 (by decide),
    (claim4_two_tier 0 [] [] qHelloL).2 (by decide)⟩

/-- C6 — whenever the escalation path of `searchBooks` completes over a
catalog with pairwise-distinct record ids, the merged result contains each
record id at most once and at most 50 records. -/
theorem claim6_merged_nodup_capped (fuel : Nat)
    (ftsResults allBooks : List Book) (query : Str) (result : List Book)
    (hlt : ftsResults.length < 3)
    (hnd : (allBooks.map Book.id).Nodup)
    (hres : searchBooksF fuel ftsResults allBooks query = some result) :
    (result.map Book.id).Nodup ∧ result.length ≤ 50 := by
  rw [searchBooksF, if_neg (by omega)] at hres
  cases hr : rankResultsF fuel query allBooks (3/10) with
  | none => rw [hr] at hres; cases hres
  | some ranked =>
    rw [hr] at hres
    replace hres : (match variationMergeF fuel allBooks query
        (getAllVariations query) ranked with
      | none => none
      | some merged => some (merged.take 50)) = some result := hres
    rw [variationMergeF_eq] at hres
    cases hm : rankVariationsF fuel allBooks
        ((getAllVariations query).filter (fun variation => variation ≠ query)) with
    | none => rw [hm] at hres; cases hres
    | some lists =>
      rw [hm] at hres
      replace hres : some ((lists.foldl mergeUnique ranked).take 50) =
        some result := hres
      replace hres := Option.some.inj hres
      have hrnd : (ranked.map Book.id).Nodup :=
        rankResultsF_ids fuel query allBooks (3/10) hnd ranked hr
      have hmerged : ((lists.foldl mergeUnique ranked).map Book.id).Nodup :=
        foldl_mergeUnique_ids lists ranked hrnd
      rw [← hres]
      constructor
      · exact (((lists.foldl mergeUnique ranked).take_sublist 50).map
          Book.id).nodup hmerged
      · exact List.length_take_le 50 _

/-- Witness for C6: the degenerate escalation over the empty catalog
completes with the empty merged result, trivially id-distinct and within the
cap. -/
theorem claim6_witness :
    (([] : List Book).map Book.id).Nodup ∧ ([] : List Book).length ≤ 50 :=
  claim6_merged_nodup_capped 1 [] [] qHelloL [] (by decide) (by simp)
    (by decide)

end BookCenter
